import Mathlib

/-!
# Verification of the Arcs hard core

A shallow embedding, in Lean 4, of the parts of the Arcs repository that the
specification's claims are about:

* `src/src/runtime/crdt/crdt-count.ts` — the `CRDTCount` replicated counter
  (`applyOperation`, `merge`, `getData`, `getParticleView`);
* `src/runtime/ts/recipe/recipe.ts` — the refinement-expression algebra
  (`RefinementExpression.normalise`, `Range`, `Segment`) and
  `Recipe.normalize`;
* the reference-mode store's pending-container-update queue (the
  implementation file is not part of the source tree here, only its Kotlin
  test; that component is modelled from the specification, and is marked as
  such below).

JavaScript `Map<string, number>` objects are embedded as association lists
(`List (String × Int)`): `Map.get(k) || 0` is `mget`, `Map.set` replaces in
place or appends (`mset`), `Map.has` is `mhas`, and iteration over `.keys()`
is iteration over the list of first components.  The numeric values that
appear in the counter code are integers in every reachable state, so `number`
is embedded as `Int` there; the refinement algebra uses `Rat` (plus explicit
infinities) instead of floating point.  Code that throws is embedded as an
`Option`-returning function with `none` for the thrown `CRDTError`/`Error`.
-/

namespace ArcsSpec


/-! ## Association-list maps (JS `Map<string, number>`) -/

abbrev Actor := String

/-- A JS `Map<string, number>`: insertion-ordered association list. -/
abbrev MapSI := List (Actor × Int)

/-- Embeds `m.get(k) || 0`: the value stored for `k`, or `0` when absent. -/
def mget (m : MapSI) (k : Actor) : Int :=
  match m with
  | [] => 0
  | (a, v) :: rest => if a = k then v else mget rest k

/-- Embeds `m.set(k, v)`: replace the entry for `k` in place, appending when new
(JS `Map.set` keeps the original insertion position of an existing key). -/
def mset (m : MapSI) (k : Actor) (v : Int) : MapSI :=
  match m with
  | [] => [(k, v)]
  | (a, w) :: rest => if a = k then (k, v) :: rest else (a, w) :: mset rest k v

/-- Embeds `m.has(k)`. -/
def mhas (m : MapSI) (k : Actor) : Bool :=
  m.any (fun p => p.1 = k)

/-- The iteration order of `m.keys()`. -/
def mkeys (m : MapSI) : List Actor :=
  m.map Prod.fst

/-! ## CRDTCount (`src/src/runtime/crdt/crdt-count.ts`)

`CountOperation` carries `{type, value?, actor, version: {from, to}}`; the
`version.from`/`version.to` fields are embedded as `vfrom`/`vto` (`from` is a
Lean keyword). -/

/-- The two `CountOpTypes`, with their payloads. -/
inductive COp where
  | increment (actor : Actor) (vfrom vto : Int)
  | multiIncrement (value : Int) (actor : Actor) (vfrom vto : Int)
deriving DecidableEq, Repr

def COp.actor : COp → Actor
  | .increment a _ _ => a
  | .multiIncrement _ a _ _ => a

def COp.vfrom : COp → Int
  | .increment _ f _ => f
  | .multiIncrement _ _ f _ => f

def COp.vto : COp → Int
  | .increment _ _ t => t
  | .multiIncrement _ _ _ t => t

/-- The amount added on success: `operation.value` for `MultiIncrement`,
`1` for `Increment`. -/
def COp.value : COp → Int
  | .increment _ _ _ => 1
  | .multiIncrement v _ _ _ => v

/-- The `CountData` record: `{values: Map<string, number>, version: VersionMap}`. -/
structure CountData where
  values : MapSI
  version : MapSI
deriving DecidableEq, Repr

/-- Embeds `CRDTCount.applyOperation`, returning the `boolean` result together with
the model after the call (unchanged on `false`). -/
def applyOperation (d : CountData) (op : COp) : Bool × CountData :=
  if op.vfrom ≠ mget d.version op.actor then (false, d)
  else if op.vto ≤ op.vfrom then (false, d)
  else
    match op with
    | .multiIncrement v a _ t =>
      if v < 0 then (false, d)
      else (true, ⟨mset d.values a (mget d.values a + v), mset d.version a t⟩)
    | .increment a _ t =>
      (true, ⟨mset d.values a (mget d.values a + 1), mset d.version a t⟩)

/-- Apply a list of operations in order, keeping the model unchanged whenever
`applyOperation` reports `false` (which is what the JS code does, since a
failed `applyOperation` performs no mutation). -/
def applyOps (d : CountData) : List COp → CountData
  | [] => d
  | op :: rest => applyOps (applyOperation d op).2 rest

/-- Embeds `CRDTCount.getParticleView`: the sum of the per-actor values. -/
def getParticleView (d : CountData) : Int :=
  d.values.foldl (fun acc p => acc + p.2) 0

/-- First loop of `CRDTCount.merge` (lines 58–76): iterate over the keys of
`other`'s values map; on `thisValue > otherValue` emit a lifting
`MultiIncrement` into `otherChanges` (or throw when versions do not dominate);
on `otherValue > thisValue` adopt locally and record the inverse in
`thisChanges`.  The maps of `other` are threaded through unchanged (the
source never writes to `otherRaw`).  `none` is the thrown `CRDTError`. -/
def mergeLoop1 (vx nx vy ny : MapSI) :
    List Actor → Option (MapSI × MapSI × MapSI × MapSI × List COp × List COp)
  | [] => some (vx, nx, vy, ny, [], [])
  | k :: rest =>
    let tv := mget vx k
    let ov := mget vy k
    let tn := mget nx k
    let onv := mget ny k
    if tv > ov then
      if onv ≥ tn then none
      else
        match mergeLoop1 vx nx vy ny rest with
        | some (vx', nx', vy', ny', tc, oc) =>
          some (vx', nx', vy', ny', tc, .multiIncrement (tv - ov) k onv tn :: oc)
        | none => none
    else if ov > tv then
      if tn ≥ onv then none
      else
        match mergeLoop1 (mset vx k ov) (mset nx k onv) vy ny rest with
        | some (vx', nx', vy', ny', tc, oc) =>
          some (vx', nx', vy', ny', .multiIncrement (ov - tv) k tn onv :: tc, oc)
        | none => none
    else mergeLoop1 vx nx vy ny rest

/-- Second loop of `CRDTCount.merge` (lines 78–87): iterate over the keys of
this model's (post-first-loop) values map; keys absent from `other`'s values
map but present in its version map throw; the remaining ones emit a
`MultiIncrement(0 → ver, value)` into `otherChanges`. -/
def mergeLoop2 (vx nx vy ny : MapSI) : List Actor → Option (List COp)
  | [] => some []
  | k :: rest =>
    if mhas vy k then mergeLoop2 vx nx vy ny rest
    else if mhas ny k then none
    else
      match mergeLoop2 vx nx vy ny rest with
      | some oc => some (.multiIncrement (mget vx k) k 0 (mget nx k) :: oc)
      | none => none

/-- Embeds `CRDTCount.merge(other)`: returns the merged `this` model, the (threaded,
unmodified) `other` model, and the `modelChange`/`otherChange` operation
lists; `none` is a thrown `CRDTError`. -/
def merge (x y : CountData) :
    Option (CountData × CountData × List COp × List COp) :=
  match mergeLoop1 x.values x.version y.values y.version (mkeys y.values) with
  | none => none
  | some (vx, nx, vy, ny, tc, oc1) =>
    match mergeLoop2 vx nx vy ny (mkeys vx) with
    | none => none
    | some oc2 => some (⟨vx, nx⟩, ⟨vy, ny⟩, tc, oc1 ++ oc2)

/-- Well-formedness of a counter replica, as maintained by the reachable
states of the code and demanded by the spec's data model (`values: Map<Actor,
int≥0>`, `version[a] ≥` the number of increments from `a`): keys are unique
(JS `Map`s cannot hold duplicates) and every actor holding a value entry has
a non-negative value and a version of at least 1. -/
def WFCount (d : CountData) : Prop :=
  (mkeys d.values).Nodup ∧ (mkeys d.version).Nodup ∧
    ∀ p ∈ d.values, 0 ≤ p.2 ∧ 1 ≤ mget d.version p.1

instance : DecidablePred WFCount := fun d => by
  unfold WFCount
  infer_instance

/-! ### Theorems about `applyOperation` -/

/-! ## Refinement expressions (`src/runtime/ts/recipe/recipe.ts`, second
part)

`RefinementExpression` and its subclasses are embedded as one inductive
type; a `field` node carries the `evalType` that `FieldNamePrimitive`
resolves from the type environment at construction; numbers are embedded as
rationals. -/

inductive Ty where
  | number
  | boolean
  | text
deriving DecidableEq, Repr

/-- The operator enum `Op`. -/
inductive ROp where
  | and
  | or
  | lt
  | gt
  | lte
  | gte
  | add
  | sub
  | mul
  | div
  | not
  | neg
  | eq
  | neq
deriving DecidableEq, Repr

inductive RExpr where
  | num (v : Rat)
  | boolean (b : Bool)
  | field (name : String) (ty : Ty)
  | binary (op : ROp) (l r : RExpr)
  | unary (op : ROp) (e : RExpr)
deriving DecidableEq, Repr

/-- The `swapChildren` operator flip's operator flip: `< ↔ >`, `<= ↔ >=`, others unchanged. -/
def swapOp : ROp → ROp
  | .lt => .gt
  | .gt => .lt
  | .lte => .gte
  | .gte => .lte
  | op => op

/-- Constant folding of a binary operator over two `BooleanPrimitive`s
(`simplifyPrimitive`, first branch).  Operators whose `argType` is neither
`Boolean` nor `same` cannot reach this point on a constructed expression
(`validateOperandCompatibility` would have thrown), so they are left
unfolded here. -/
def foldBB (op : ROp) (a b : Bool) : Option RExpr :=
  match op with
  | .and => some (.boolean (a && b))
  | .or => some (.boolean (a || b))
  | .eq => some (.boolean (a == b))
  | .neq => some (.boolean (a != b))
  | _ => none

/-- Constant folding of a binary operator over two `NumberPrimitive`s
(`simplifyPrimitive`, second branch): an operator with Boolean `evalType`
yields a `BooleanPrimitive`, a numeric one a `NumberPrimitive`.  `and`/`or`
cannot be constructed over numbers, and division by zero (JS
`Infinity`/`NaN`) lies outside the rational embedding; both are left
unfolded. -/
def foldNN (op : ROp) (a b : Rat) : Option RExpr :=
  match op with
  | .lt => some (.boolean (decide (a < b)))
  | .gt => some (.boolean (decide (b < a)))
  | .lte => some (.boolean (decide (a ≤ b)))
  | .gte => some (.boolean (decide (b ≤ a)))
  | .eq => some (.boolean (a == b))
  | .neq => some (.boolean (a != b))
  | .add => some (.num (a + b))
  | .sub => some (.num (a - b))
  | .mul => some (.num (a * b))
  | .div => if b = 0 then none else some (.num (a / b))
  | _ => none

/-- Embeds `BinaryExpression.simplifyPrimitive`. -/
def simplifyPrimitive2 (op : ROp) (l r : RExpr) : Option RExpr :=
  match l, r with
  | .boolean a, .boolean b => foldBB op a b
  | .num a, .num b => foldNN op a b
  | _, _ => none

/-- Embeds `expr instanceof FieldNamePrimitive`. -/
def RExpr.isFieldName : RExpr → Bool
  | .field _ _ => true
  | _ => false

/-- The tail of `BinaryExpression.normalise` after constant folding and the
`swapChildren` step: the `AND`/`OR` identity laws over already-normalised
children. -/
def binaryIdentity (op2 : ROp) (l2 r2 : RExpr) : RExpr :=
  match op2 with
  | .and =>
    match l2 with
    | .boolean bv => if bv then r2 else .boolean bv
    | _ =>
      match r2 with
      | .boolean bv => if bv then l2 else .boolean bv
      | _ => .binary op2 l2 r2
  | .or =>
    match l2 with
    | .boolean bv => if bv then .boolean bv else r2
    | _ =>
      match r2 with
      | .boolean bv => if bv then .boolean bv else l2
      | _ => .binary op2 l2 r2
  | _ => .binary op2 l2 r2

/-- The body of `UnaryExpression.normalise` over the already-normalised
child: fold `not`/`neg` over a primitive (`simplifyPrimitive`), then strip
`NOT NOT`. -/
def unaryStep (op : ROp) (e' : RExpr) : RExpr :=
  match op with
  | .not =>
    match e' with
    | .boolean b => .boolean (!b)
    | .unary .not y => y
    | _ => .unary .not e'
  | .neg =>
    match e' with
    | .num q => .num (-q)
    | _ => .unary .neg e'
  | _ => .unary op e'

/-- Embeds `RefinementExpression.normalise`: children are normalised first; a
binary node constant-folds (`simplifyPrimitive`), moves a field reference to
the left flipping the comparison (`swapChildren`), then applies the identity
laws; a unary node folds `not`/`neg` over a primitive and rewrites
`NOT NOT x` to `x` (`unaryStep`); primitives normalise to themselves. -/
def normalise : RExpr → RExpr
  | .binary op l r =>
    let l' := normalise l
    let r' := normalise r
    match simplifyPrimitive2 op l' r' with
    | some e => e
    | none =>
      if r'.isFieldName then binaryIdentity (swapOp op) r' l'
      else binaryIdentity op l' r'
  | .unary op e => unaryStep op (normalise e)
  | e => e

/-- The operator table's `argType` (`none` encodes `'same'`). -/
def argTy : ROp → Option Ty
  | .and | .or | .not => some .boolean
  | .eq | .neq => none
  | _ => some .number

/-- The operator table's `evalType`. -/
def evalTy : ROp → Ty
  | .and | .or | .lt | .gt | .lte | .gte | .not | .eq | .neq => .boolean
  | _ => .number

/-- The operator table's `nArgs`. -/
def arity : ROp → Nat
  | .not | .neg => 1
  | _ => 2

/-- Static type of an expression, mirroring the constructors together with
`validateOperandCompatibility`: `some ty` exactly when construction would
succeed with `evalType = ty`. -/
def wellTyped : RExpr → Option Ty
  | .num _ => some .number
  | .boolean _ => some .boolean
  | .field _ ty => some ty
  | .binary op l r =>
    match wellTyped l, wellTyped r with
    | some tl, some tr =>
      if arity op = 2 then
        match argTy op with
        | some t => if tl = t ∧ tr = t then some (evalTy op) else none
        | none => if tl = tr then some (evalTy op) else none
      else none
    | _, _ => none
  | .unary op e =>
    match wellTyped e with
    | some te =>
      if arity op = 1 then
        match argTy op with
        | some t => if te = t then some (evalTy op) else none
        | none => none
      else none
    | none => none

/-! ### The identity laws (normalisation) -/

/-- Shapes `normalise` never produces: a `not` applied directly to a boolean
constant or to another `not`. -/
def goodNot : RExpr → Bool
  | .unary .not (.boolean _) => false
  | .unary .not (.unary .not _) => false
  | _ => true

/-! ### Ranges and segments (`Range`, `Segment`, `Boundary`)

A `Boundary`'s `kind` is embedded as `closed : Bool` (`true` = `'closed'`,
`false` = `'open'`); endpoint values are rationals extended with the two JS
infinities.  A `Range` is its ordered `segments` list; the `Range`
constructor (`new Range(segs)`) folds the segments in via `unionWithSeg` and
is `mkRange`. -/

/-- JS numbers used as segment endpoints: a rational or one of
`Number.NEGATIVE_INFINITY` / `Number.POSITIVE_INFINITY`. -/
inductive ENum where
  | negInf
  | fin (q : Rat)
  | posInf
deriving DecidableEq, Repr

/-- The `<` comparison of JS numbers on these values. -/
def ENum.lt : ENum → ENum → Bool
  | .negInf, .negInf => false
  | .negInf, _ => true
  | .fin a, .fin b => decide (a < b)
  | .fin _, .posInf => true
  | _, _ => false

structure Boundary where
  val : ENum
  closed : Bool
deriving DecidableEq, Repr

/-- A `Segment`; `from`/`to` are embedded as `sfrom`/`sto` (`from` is a Lean
keyword).  Where the source constructor throws on an invalid pair, the
embedding's callers check `segIsValid` exactly where the source does. -/
structure Segment where
  sfrom : Boundary
  sto : Boundary
deriving DecidableEq, Repr

/-- Embeds `Segment.isValid`. -/
def segIsValid (f t : Boundary) : Bool :=
  if ENum.lt t.val f.val then false
  else if f.val = t.val ∧ (f.closed = false ∨ t.closed = false) then false
  else true

def segClosedClosed (a b : ENum) : Segment := ⟨⟨a, true⟩, ⟨b, true⟩⟩

def segOpenOpen (a b : ENum) : Segment := ⟨⟨a, false⟩, ⟨b, false⟩⟩

def segClosedOpen (a b : ENum) : Segment := ⟨⟨a, true⟩, ⟨b, false⟩⟩

def segOpenClosed (a b : ENum) : Segment := ⟨⟨a, false⟩, ⟨b, true⟩⟩

/-- Embeds `Segment.isLessThan(seg, strict)`. -/
def segIsLessThan (s seg : Segment) (strict : Bool) : Bool :=
  if s.sto.val = seg.sfrom.val then
    if strict then !s.sto.closed || !seg.sfrom.closed
    else !s.sto.closed && !seg.sfrom.closed
  else ENum.lt s.sto.val seg.sfrom.val

/-- Embeds `Segment.isGreaterThan(seg, strict)`. -/
def segIsGreaterThan (s seg : Segment) (strict : Bool) : Bool :=
  if s.sfrom.val = seg.sto.val then
    if strict then !s.sfrom.closed || !seg.sto.closed
    else !s.sfrom.closed && !seg.sto.closed
  else ENum.lt seg.sto.val s.sfrom.val

def segMergeableWith (s seg : Segment) : Bool :=
  !segIsLessThan s seg false && !segIsGreaterThan s seg false

def segOverlapsWith (s seg : Segment) : Bool :=
  !segIsLessThan s seg true && !segIsGreaterThan s seg true

/-- Embeds `Segment.merge` (the caller has checked mergeability): boundary kinds
that coincide are kept, differing kinds become `'closed'`; the wider
endpoint wins. -/
def segMerge (a b : Segment) : Segment :=
  ⟨if a.sfrom.val = b.sfrom.val then
      ⟨a.sfrom.val, if a.sfrom.closed = b.sfrom.closed then a.sfrom.closed
        else true⟩
    else if ENum.lt a.sfrom.val b.sfrom.val then a.sfrom else b.sfrom,
   if a.sto.val = b.sto.val then
      ⟨a.sto.val, if a.sto.closed = b.sto.closed then a.sto.closed else true⟩
    else if ENum.lt b.sto.val a.sto.val then a.sto else b.sto⟩

/-- Embeds `Segment.overlap` (the caller has checked overlap): differing kinds
become `'open'`; the narrower endpoint wins. -/
def segOverlap (a b : Segment) : Segment :=
  ⟨if a.sfrom.val = b.sfrom.val then
      ⟨a.sfrom.val, if a.sfrom.closed = b.sfrom.closed then a.sfrom.closed
        else false⟩
    else if ENum.lt b.sfrom.val a.sfrom.val then a.sfrom else b.sfrom,
   if a.sto.val = b.sto.val then
      ⟨a.sto.val, if a.sto.closed = b.sto.closed then a.sto.closed
        else false⟩
    else if ENum.lt a.sto.val b.sto.val then a.sto else b.sto⟩

/-- Forward scan of `Range.unionWithSeg`: counts the leading segments that
`seg` is strictly greater than (the splice index `i`) and computes the left
boundary `x` from the first remaining segment, if any. -/
def uwsForward (seg : Segment) : List Segment → Nat × Boundary
  | [] => (0, seg.sfrom)
  | s :: rest =>
    if segIsGreaterThan seg s false then
      let p := uwsForward seg rest
      (p.1 + 1, p.2)
    else
      (0, if segMergeableWith seg s then (segMerge seg s).sfrom
          else if ENum.lt s.sfrom.val seg.sfrom.val then s.sfrom
          else seg.sfrom)

/-- Backward scan of `Range.unionWithSeg` over the reversed segment list:
counts the trailing segments that `seg` is strictly less than and computes
the right boundary `y`. -/
def uwsBackward (seg : Segment) : List Segment → Nat × Boundary
  | [] => (0, seg.sto)
  | s :: rest =>
    if segIsLessThan seg s false then
      let p := uwsBackward seg rest
      (p.1 + 1, p.2)
    else
      (0, if segMergeableWith seg s then (segMerge seg s).sto
          else if ENum.lt seg.sto.val s.sto.val then s.sto
          else seg.sto)

/-- Embeds `Range.unionWithSeg`: `segments.splice(i, j - i, new Segment(x, y))`
(a negative JS delete count deletes nothing, hence the `max`). -/
def unionWithSeg (segs : List Segment) (seg : Segment) : List Segment :=
  let f := uwsForward seg segs
  let b := uwsBackward seg segs.reverse
  segs.take f.1 ++ [⟨f.2, b.2⟩] ++ segs.drop (max f.1 (segs.length - b.1))

/-- Embeds `Range.union`. -/
def rangeUnion (segs other : List Segment) : List Segment :=
  other.foldl unionWithSeg segs

/-- Embeds the constructor call `new Range(segs)`. -/
def mkRange (segs : List Segment) : List Segment :=
  segs.foldl unionWithSeg []

/-- Embeds `Range.intersectWithSeg`. -/
def intersectWithSeg (segs : List Segment) (seg : Segment) : List Segment :=
  segs.foldl (fun acc s =>
    if segOverlapsWith s seg then acc ++ [segOverlap seg s] else acc) []

/-- Embeds `Range.intersect`: for each segment of the other range, intersect a copy
of this range with it and union the results. -/
def rangeIntersect (a b : List Segment) : List Segment :=
  b.foldl (fun acc seg => rangeUnion acc (intersectWithSeg (mkRange a) seg))
    []

/-- Embeds `Range.intersectionOf`. -/
def rangeIntersectionOf (a b : List Segment) : List Segment :=
  rangeIntersect (mkRange a) b

/-- Embeds `Range.unionOf`. -/
def rangeUnionOf (a b : List Segment) : List Segment :=
  rangeUnion (mkRange a) b

/-- Embeds `Range.difference(A, B) = A \ B`: for each segment of `A`, walk the
segments of `B ∩ segment` emitting the gaps whose boundaries are the
complemented boundary kinds, keeping only valid segments. -/
def rangeDifference (r1 r2 : List Segment) : List Segment :=
  r1.foldl (fun acc seg =>
    let ntrsct := intersectWithSeg (mkRange r2) seg
    let q := ntrsct.foldl (fun (p : List Segment × Boundary) iseg =>
      let toB : Boundary := ⟨iseg.sfrom.val, !iseg.sfrom.closed⟩
      (if segIsValid p.2 toB then p.1 ++ [⟨p.2, toB⟩] else p.1,
        ⟨iseg.sto.val, !iseg.sto.closed⟩)) (acc, seg.sfrom)
    if segIsValid q.2 seg.sto then q.1 ++ [⟨q.2, seg.sto⟩] else q.1) []

/-- Embeds `Range.infiniteRange()`. -/
def infiniteRange : List Segment :=
  mkRange [segOpenOpen .negInf .posInf]

/-- Embeds `Range.complementOf` with respect to `(-∞, +∞)`. -/
def rangeComplementOf (r : List Segment) : List Segment :=
  rangeDifference infiniteRange r

/-- Embeds `Range.makeInitialGivenOp(op, val)` for a `field OP number` leaf. -/
def makeInitialGivenOp (op : ROp) (v : Rat) : Option (List Segment) :=
  match op with
  | .lt => some (mkRange [segOpenOpen .negInf (.fin v)])
  | .lte => some (mkRange [segOpenClosed .negInf (.fin v)])
  | .gt => some (mkRange [segOpenOpen (.fin v) .posInf])
  | .gte => some (mkRange [segClosedOpen (.fin v) .posInf])
  | .eq => some (mkRange [segClosedClosed (.fin v) (.fin v)])
  | .neq =>
    some (rangeComplementOf (mkRange [segClosedClosed (.fin v) (.fin v)]))
  | _ => none

/-- Embeds `Range.updateGivenOp` on two subranges (`none` is the thrown error). -/
def updateGivenOp2 (op : ROp) (a b : List Segment) :
    Option (List Segment) :=
  match op with
  | .and => some (rangeIntersectionOf a b)
  | .or => some (rangeUnionOf a b)
  | .eq =>
    some (rangeUnionOf (rangeIntersectionOf a b)
      (rangeIntersectionOf (rangeComplementOf a) (rangeComplementOf b)))
  | .neq =>
    some (rangeUnionOf (rangeIntersectionOf a (rangeComplementOf b))
      (rangeIntersectionOf (rangeComplementOf a) b))
  | _ => none

/-- Embeds `Range.updateGivenOp` on one subrange. -/
def updateGivenOp1 (op : ROp) (a : List Segment) : Option (List Segment) :=
  match op with
  | .not => some (rangeComplementOf a)
  | _ => none

/-- Embeds `Range.fromExpression` over a normalised expression; `none` is the
thrown error for unresolvable primitives or unsupported operators. -/
def fromExpression : RExpr → Option (List Segment)
  | .binary op l r =>
    match l, r with
    | .field _ _, .num v => makeInitialGivenOp op v
    | l, r =>
      match fromExpression l, fromExpression r with
      | some a, some b => updateGivenOp2 op a b
      | _, _ => none
  | .unary op e =>
    match fromExpression e with
    | some a => updateGivenOp1 op a
    | none => none
  | _ => none

/-- The refinement `(age >= 18) AND (age < 65)` over a Number field `age`,
already in the canonical field-on-the-left shape that `fromExpression`
expects. -/
def ageExpr : RExpr :=
  .binary .and (.binary .gte (.field "age" .number) (.num 18))
    (.binary .lt (.field "age" .number) (.num 65))

/-! ## Reference-mode store: the pending container-update queue

The `ReferenceModeStore` implementation is not part of this source tree —
only its Kotlin test (`src_kt/javatests/arcs/storage/ReferenceModeStoreTest.kt`,
`holdsOnto_containerUpdate_untilBackingDataArrives`) is.  The component is
therefore modelled from the specification (§4.C). -/

/-- A version vector: actor → counter, missing key ≡ 0. -/
abbrev VV := List (String × Nat)

def vvGet (m : VV) (k : String) : Nat :=
  match m with
  | [] => 0
  | (a, v) :: rest => if a = k then v else vvGet rest k

/-- Partial order `u ≤ v` iff `∀a. u[a] ≤ v[a]`. -/
def vvLe (u v : VV) : Bool :=
  u.all (fun p => p.2 ≤ vvGet v p.1)

/-- Modelled from the spec: a container update introducing `Reference`s,
reduced to the data the waiting queue inspects — the referenced entity ids
with the References' version vectors. -/
structure RefUpdate where
  refs : List (String × VV)
deriving DecidableEq, Repr

/-- Modelled from the spec: the two driver-side events §4.C coordinates —
a container update and the arrival of a backing model for an entity id. -/
inductive RMsg where
  | containerUpdate (u : RefUpdate)
  | backingArrive (id : String) (vv : VV)
deriving DecidableEq, Repr

/-- Modelled from the spec: the store state visible to the waiting-queue
machinery — the per-id backing-model version vectors, the queue of pending
container updates, and the proxy-visible `ModelUpdate`s emitted so far. -/
structure RMState where
  backing : List (String × VV)
  pending : List RefUpdate
  emitted : List RefUpdate
deriving DecidableEq, Repr

def backingGet (b : List (String × VV)) (id : String) : Option VV :=
  (b.find? (fun p => p.1 = id)).map Prod.snd

/-- Every referenced entity has a concrete backing model whose version
vector is ≥ the Reference's version vector. -/
def satisfied (b : List (String × VV)) (u : RefUpdate) : Bool :=
  u.refs.all (fun r =>
    match backingGet b r.1 with
    | some vv => vvLe r.2 vv
    | none => false)

/-- Pointwise join of version vectors (backing models grow monotonically). -/
def vvJoin (u v : VV) : VV :=
  u.map (fun p => (p.1, max p.2 (vvGet v p.1))) ++
    v.filter (fun p => !(u.any (fun q => q.1 = p.1)))

def backingUpd (b : List (String × VV)) (id : String) (vv : VV) :
    List (String × VV) :=
  match b with
  | [] => [(id, vv)]
  | (k, w) :: rest =>
    if k = id then (k, vvJoin w vv) :: rest
    else (k, w) :: backingUpd rest id vv

/-- Modelled from the spec: one step of the reference-mode store's waiting
queue.  A container update is emitted as a proxy-visible `ModelUpdate` when
every referenced entity is already dereferencable, and queued otherwise; a
backing arrival merges into the backing map and releases exactly the queued
updates that have become fully dereferencable. -/
def step (s : RMState) (m : RMsg) : RMState :=
  match m with
  | .containerUpdate u =>
    if satisfied s.backing u then { s with emitted := s.emitted ++ [u] }
    else { s with pending := s.pending ++ [u] }
  | .backingArrive id vv =>
    let b' := backingUpd s.backing id vv
    { backing := b',
      pending := s.pending.filter (fun u => !satisfied b' u),
      emitted := s.emitted ++ s.pending.filter (fun u => satisfied b' u) }

/-! ## Recipe normalization (`src/runtime/ts/recipe/recipe.ts`, first part)

`Recipe.normalize`, `Recipe._isValid` and `Recipe._findDuplicate` are
embedded from the source.  The node classes (`recipe/particle.ts`,
`recipe/handle.ts`, `recipe/slot.ts`) and `compareComparables` are not part
of this source tree, so node-level validity and the canonical ordering are
modelled abstractly from the specification (§4.D). -/

/-- Modelled from the spec: a recipe node (Particle / Handle / Slot).  The
node class files are absent; per §4.D a node has an optional `id` (used by
the duplicate check), its own validity bit (`every node's own isValid
holds`), and a sort key standing in for `compareComparables`. -/
structure RNode where
  id : Option String
  valid : Bool
  key : Nat
deriving DecidableEq, Repr

/-- The recipe state `normalize` reads and rewrites.  Handle- and
slot-connection validity (computed by the absent connection classes) is
summarized by the two boolean fields, modelled from the spec. -/
structure Recipe where
  frozen : Bool
  particles : List RNode
  handles : List RNode
  slots : List RNode
  connectionsValid : Bool
  searchValid : Bool
  verbs : List String
  patterns : List String
deriving DecidableEq, Repr

def findDupGo (seen : List String) : List RNode → Option RNode
  | [] => none
  | n :: rest =>
    match n.id with
    | some i => if i ∈ seen then some n else findDupGo (i :: seen) rest
    | none => findDupGo seen rest

/-- Embeds `Recipe._findDuplicate`: the first node whose (present) id has already
been seen. -/
def findDuplicate (items : List RNode) : Option RNode :=
  findDupGo [] items

/-- Embeds `Recipe._isValid`: no duplicate handles or slots by id, every node's own
validity holds, the connections are valid, and the optional search is
valid. -/
def recipeIsValid (r : Recipe) : Bool :=
  (findDuplicate r.handles).isNone && (findDuplicate r.slots).isNone &&
    r.handles.all (fun h => h.valid) && r.particles.all (fun p => p.valid) &&
    r.slots.all (fun sl => sl.valid) && r.connectionsValid && r.searchValid

/-- The canonical reordering of §4.D steps 3–7, modelled from the spec as a
stable sort by the node key (`compareComparables` and the connection-driven
first-appearance order live in the absent node files); verbs and patterns
are sorted lexicographically as in the source. -/
def canonicalize (r : Recipe) : Recipe :=
  { r with
    frozen := true
    particles := r.particles.insertionSort (fun a b => a.key ≤ b.key)
    handles := r.handles.insertionSort (fun a b => a.key ≤ b.key)
    slots := r.slots.insertionSort (fun a b => a.key ≤ b.key)
    verbs := r.verbs.insertionSort (fun a b => a ≤ b)
    patterns := r.patterns.insertionSort (fun a b => a ≤ b) }

/-- Embeds `Recipe.normalize(options)`: refuse if already frozen (recording
`'already normalized'` into the errors map), refuse if invalid (recording
the validation errors), otherwise canonicalize and freeze.  The recipe is
returned alongside the boolean so the refusal paths expose that they mutate
nothing; the errors map is the threaded string list. -/
def normalize (r : Recipe) (errors : List String) :
    Bool × Recipe × List String :=
  if r.frozen then (false, r, errors ++ ["already normalized"])
  else if !(recipeIsValid r) then (false, r, errors ++ ["invalid recipe"])
  else (true, canonicalize r, errors)

@[simp] theorem mget_nil (k : Actor) : mget [] k = 0 := rfl

@[simp] theorem mhas_nil (k : Actor) : mhas [] k = false := rfl

theorem mget_cons (a : Actor) (v : Int) (m : MapSI) (k : Actor) :
    mget ((a, v) :: m) k = if a = k then v else mget m k := rfl

theorem mhas_cons (a : Actor) (v : Int) (m : MapSI) (k : Actor) :
    mhas ((a, v) :: m) k = (decide (a = k) || mhas m k) := by
  simp [mhas, List.any_cons]

theorem mget_eq_zero_of_not_mhas {m : MapSI} {k : Actor} (h : mhas m k = false) :
    mget m k = 0 := by
  induction m with
  | nil => rfl
  | cons p rest ih =>
    obtain ⟨a, v⟩ := p
    rw [mhas_cons] at h
    simp only [Bool.or_eq_false_iff, decide_eq_false_iff_not] at h
    rw [mget_cons, if_neg h.1]
    exact ih h.2

theorem mhas_of_mget_ne_zero {m : MapSI} {k : Actor} (h : mget m k ≠ 0) :
    mhas m k = true := by
  by_contra hc
  exact h (mget_eq_zero_of_not_mhas (Bool.eq_false_iff.mpr hc))

theorem mhas_iff_mem_mkeys (m : MapSI) (k : Actor) :
    mhas m k = true ↔ k ∈ mkeys m := by
  induction m with
  | nil => simp [mkeys]
  | cons p rest ih =>
    obtain ⟨a, v⟩ := p
    rw [mhas_cons]
    simp only [mkeys, List.map_cons, List.mem_cons, Bool.or_eq_true,
      decide_eq_true_eq]
    constructor
    · rintro (h | h)
      · exact Or.inl h.symm
      · exact Or.inr (ih.mp h)
    · rintro (h | h)
      · exact Or.inl h.symm
      · exact Or.inr (ih.mpr h)

@[simp] theorem mget_mset_self (m : MapSI) (k : Actor) (v : Int) :
    mget (mset m k v) k = v := by
  induction m with
  | nil => simp [mset, mget]
  | cons p rest ih =>
    obtain ⟨a, w⟩ := p
    by_cases h : a = k
    · simp [mset, h, mget]
    · simp [mset, h, mget, ih]

@[simp] theorem mget_mset_ne (m : MapSI) (k k' : Actor) (v : Int) (h : k ≠ k') :
    mget (mset m k v) k' = mget m k' := by
  induction m with
  | nil => simp [mset, mget, h]
  | cons p rest ih =>
    obtain ⟨a, w⟩ := p
    by_cases ha : a = k
    · subst ha
      simp [mset, mget, h]
    · simp [mset, ha, mget, ih]

theorem mhas_mset (m : MapSI) (k k' : Actor) (v : Int) :
    mhas (mset m k v) k' = (decide (k = k') || mhas m k') := by
  induction m with
  | nil => simp [mset, mhas_cons]
  | cons p rest ih =>
    obtain ⟨a, w⟩ := p
    by_cases ha : a = k
    · subst ha
      simp [mset, mhas_cons]
    · simp only [mset, if_neg ha, mhas_cons, ih]
      cases h1 : decide (a = k') <;> cases h2 : decide (k = k') <;> simp

theorem mkeys_mset_of_mhas (m : MapSI) (k : Actor) (v : Int)
    (h : mhas m k = true) : mkeys (mset m k v) = mkeys m := by
  induction m with
  | nil => simp [mhas] at h
  | cons p rest ih =>
    obtain ⟨a, w⟩ := p
    rw [mhas_cons] at h
    by_cases ha : a = k
    · subst ha
      simp [mset, mkeys]
    · simp only [Bool.or_eq_true, decide_eq_true_eq] at h
      rcases h with h | h
      · exact absurd h ha
      · simp only [mkeys] at ih ⊢
        simp [mset, if_neg ha, ih h]

theorem mkeys_mset_of_not_mhas (m : MapSI) (k : Actor) (v : Int)
    (h : mhas m k = false) : mkeys (mset m k v) = mkeys m ++ [k] := by
  induction m with
  | nil => simp [mset, mkeys]
  | cons p rest ih =>
    obtain ⟨a, w⟩ := p
    rw [mhas_cons] at h
    simp only [Bool.or_eq_false_iff, decide_eq_false_iff_not] at h
    simp only [mkeys] at ih ⊢
    simp [mset, if_neg h.1, ih h.2]

theorem nodup_mkeys_mset (m : MapSI) (k : Actor) (v : Int)
    (h : (mkeys m).Nodup) : (mkeys (mset m k v)).Nodup := by
  cases hk : mhas m k
  · rw [mkeys_mset_of_not_mhas m k v hk]
    refine List.Nodup.append h (List.nodup_singleton k) ?_
    intro a ha hb
    rw [List.mem_singleton] at hb
    subst hb
    rw [← mhas_iff_mem_mkeys] at ha
    rw [ha] at hk
    simp at hk
  · rw [mkeys_mset_of_mhas m k v hk]
    exact h

/-- Internal characterization of when `applyOperation` succeeds (shared by
several of the theorems below). -/
theorem applyOp_true_iff (d : CountData) (op : COp) (hv : 0 ≤ op.value) :
    (applyOperation d op).1 = true ↔
      op.vfrom = mget d.version op.actor ∧ op.vfrom < op.vto := by
  cases op with
  | increment a f t =>
    unfold applyOperation
    simp only [COp.vfrom, COp.vto, COp.actor, COp.value] at hv ⊢
    split_ifs with h1 h2 <;> constructor <;> intros <;> simp_all <;> omega
  | multiIncrement v a f t =>
    unfold applyOperation
    simp only [COp.vfrom, COp.vto, COp.actor, COp.value] at hv ⊢
    split_ifs with h1 h2 h3 <;> constructor <;> intros <;> simp_all <;> omega

/-- Internal characterization of the model after a successful
`applyOperation`. -/
theorem applyOp_success_state (d : CountData) (op : COp) (hv : 0 ≤ op.value)
    (h1 : op.vfrom = mget d.version op.actor) (h2 : op.vfrom < op.vto) :
    applyOperation d op =
      (true, ⟨mset d.values op.actor (mget d.values op.actor + op.value),
        mset d.version op.actor op.vto⟩) := by
  cases op with
  | increment a f t =>
    unfold applyOperation
    simp only [COp.vfrom, COp.vto, COp.actor, COp.value] at h1 h2 ⊢
    rw [if_neg (by omega), if_neg (by omega)]
  | multiIncrement v a f t =>
    unfold applyOperation
    simp only [COp.vfrom, COp.vto, COp.actor, COp.value] at hv h1 h2 ⊢
    rw [if_neg (by omega), if_neg (by omega), if_neg (by omega)]

/-- C10: `CRDTCount.applyOperation` is atomic: whenever it returns `false`
the model's values map and version map are completely unchanged (every
validation check precedes any mutation). -/
theorem applyOperation_atomic (d : CountData) (op : COp)
    (h : (applyOperation d op).1 = false) : (applyOperation d op).2 = d := by
  cases op with
  | increment a f t =>
    unfold applyOperation at h ⊢
    simp only [COp.vfrom, COp.vto, COp.actor] at h ⊢
    split_ifs at h ⊢ <;> simp_all
  | multiIncrement v a f t =>
    unfold applyOperation at h ⊢
    simp only [COp.vfrom, COp.vto, COp.actor] at h ⊢
    split_ifs at h ⊢ <;> simp_all

/-- A concrete failing operation for the atomicity theorem: a duplicate-style
increment whose `from` does not match the empty model's version. -/
theorem applyOperation_atomic_witness :
    (applyOperation ⟨[], []⟩ (.increment "me" 1 2)).1 = false ∧
    (applyOperation ⟨[], []⟩ (.increment "me" 1 2)).2 = ⟨[], []⟩ :=
  ⟨by decide, applyOperation_atomic ⟨[], []⟩ (.increment "me" 1 2) (by decide)⟩

/-- C2: for every model and every Count operation (whose payload satisfies
the spec's operation signature `value ≥ 0`; `Increment` counts as value 1),
`applyOperation` returns `true` iff `from` equals the current
`version[actor]` (0 when absent) and `to > from`; on success it adds the
operation's value to `values[actor]` and sets `version[actor]` to `to`. -/
theorem applyOperation_spec (d : CountData) (op : COp) (hv : 0 ≤ op.value) :
    ((applyOperation d op).1 = true ↔
      op.vfrom = mget d.version op.actor ∧ op.vfrom < op.vto) ∧
    (op.vfrom = mget d.version op.actor → op.vfrom < op.vto →
      (applyOperation d op).2 =
        ⟨mset d.values op.actor (mget d.values op.actor + op.value),
          mset d.version op.actor op.vto⟩) :=
  ⟨applyOp_true_iff d op hv,
    fun h1 h2 => by rw [applyOp_success_state d op hv h1 h2]⟩

/-- Witness for the `applyOperation` success/failure characterization, on a
fresh model and the operation `MultiIncrement(7, 'me', 0, 1)`. -/
theorem applyOperation_spec_witness :
    ((applyOperation ⟨[], []⟩ (.multiIncrement 7 "me" 0 1)).1 = true ↔
      (COp.multiIncrement 7 "me" 0 1).vfrom = mget ([] : MapSI) "me" ∧
        (COp.multiIncrement 7 "me" 0 1).vfrom <
          (COp.multiIncrement 7 "me" 0 1).vto) ∧
    (applyOperation ⟨[], []⟩ (.multiIncrement 7 "me" 0 1)).2 =
      ⟨[("me", 7)], [("me", 1)]⟩ := by
  have h := applyOperation_spec ⟨[], []⟩ (.multiIncrement 7 "me" 0 1)
    (by decide)
  exact ⟨h.1, by rw [h.2 (by decide) (by decide)]; decide⟩

/-- C5 counterexample: a `MultiIncrement` whose value is 0 (with valid
`from`/`to`) is *accepted*, not rejected: the guard in the code is
`operation.value < 0`.  On the empty model it returns `true` and bumps the
version. -/
theorem multiIncrement_zero_accepted :
    applyOperation ⟨[], []⟩ (.multiIncrement 0 "a" 0 1) =
      (true, ⟨[("a", 0)], [("a", 1)]⟩) := by decide

/-- C5 (amended): a `MultiIncrement` with *negative* value is rejected
(returns `false`, model unchanged); a `MultiIncrement` with value 0 and
otherwise valid `from`/`to` is accepted: it returns `true`, leaves every
actor's value unchanged, and sets `version[actor] = to`. -/
theorem applyOperation_zero_and_negative (d : CountData) (a : Actor)
    (f t : Int) (h1 : f = mget d.version a) (h2 : f < t) :
    (applyOperation d (.multiIncrement 0 a f t)).1 = true ∧
    (∀ k, mget (applyOperation d (.multiIncrement 0 a f t)).2.values k =
      mget d.values k) ∧
    (applyOperation d (.multiIncrement 0 a f t)).2.version =
      mset d.version a t ∧
    (∀ v : Int, v < 0 → applyOperation d (.multiIncrement v a f t) =
      (false, d)) := by
  have hv : (0 : Int) ≤ (COp.multiIncrement 0 a f t).value := by
    simp [COp.value]
  have hiff := applyOp_true_iff d (.multiIncrement 0 a f t) hv
  have heq' := applyOp_success_state d (.multiIncrement 0 a f t) hv
    (by simpa [COp.vfrom, COp.actor] using h1)
    (by simpa [COp.vfrom, COp.vto] using h2)
  simp only [COp.actor, COp.value, COp.vfrom, COp.vto] at hiff heq'
  have heq : (applyOperation d (COp.multiIncrement 0 a f t)).2 =
      ⟨mset d.values a (mget d.values a + 0), mset d.version a t⟩ := by
    rw [heq']
  refine ⟨hiff.mpr ⟨h1, h2⟩, ?_, ?_, ?_⟩
  · intro k
    rw [heq]
    by_cases hk : a = k
    · subst hk
      simp
    · simp [mget_mset_ne _ _ _ _ hk]
  · rw [heq]
  · intro v hv
    unfold applyOperation
    simp only [COp.vfrom, COp.vto, COp.actor]
    rw [if_neg (by simp [h1]), if_neg (by omega), if_pos hv]

/-- Witness for the amended C5 statement at a concrete input. -/
theorem applyOperation_zero_and_negative_witness :
    (applyOperation ⟨[("a", 4)], [("a", 2)]⟩ (.multiIncrement 0 "a" 2 3)).1 =
      true ∧
    mget (applyOperation ⟨[("a", 4)], [("a", 2)]⟩
      (.multiIncrement 0 "a" 2 3)).2.values "a" = 4 ∧
    applyOperation ⟨[("a", 4)], [("a", 2)]⟩ (.multiIncrement (-1) "a" 2 3) =
      (false, ⟨[("a", 4)], [("a", 2)]⟩) := by
  have h := applyOperation_zero_and_negative ⟨[("a", 4)], [("a", 2)]⟩ "a" 2 3
    (by decide) (by decide)
  exact ⟨h.1, by rw [h.2.1 "a"]; decide, h.2.2.2 (-1) (by decide)⟩

/-! ### Theorems about `merge` -/

theorem mem_of_mhas {m : MapSI} {k : Actor} (h : mhas m k = true) :
    ∃ p ∈ m, p.1 = k := by
  unfold mhas at h
  rw [List.any_eq_true] at h
  obtain ⟨p, hp, he⟩ := h
  exact ⟨p, hp, by simpa using he⟩

theorem mget_eq_of_mem {m : MapSI} {p : Actor × Int}
    (hnd : (mkeys m).Nodup) (hp : p ∈ m) : mget m p.1 = p.2 := by
  induction m with
  | nil => simp at hp
  | cons q rest ih =>
    obtain ⟨a, v⟩ := q
    simp only [mkeys, List.map_cons, List.nodup_cons] at hnd
    rcases List.mem_cons.mp hp with h | h
    · subst h
      simp [mget_cons]
    · rw [mget_cons]
      have hak : a ≠ p.1 := by
        intro he
        exact hnd.1 (he ▸ (List.mem_map.mpr ⟨p, h, rfl⟩))
      rw [if_neg hak]
      exact ih hnd.2 h

/-- Under well-formedness, an actor holding a value entry has a non-negative
value and a version of at least 1. -/
theorem WFCount_bounds {x : CountData} (hx : WFCount x) {k : Actor}
    (h : mhas x.values k = true) :
    0 ≤ mget x.values k ∧ 1 ≤ mget x.version k := by
  obtain ⟨p, hp, hk⟩ := mem_of_mhas h
  obtain ⟨h1, h2⟩ := hx.2.2 p hp
  have := mget_eq_of_mem hx.1 hp
  rw [← hk]
  constructor
  · rw [this]; exact h1
  · exact h2

/-- Per-key description of the second merge loop: every key of this model's
values map that is absent from `other`'s values map gets exactly one
`MultiIncrement(0 → ver, value)` emitted, actors are distinct, and (since the
loop returned rather than throwing) `other`'s version map has no entry for
any of those keys. -/
theorem mergeLoop2_spec :
    ∀ (ks : List Actor) (vx nx vy ny : MapSI) (oc : List COp),
      ks.Nodup →
      mergeLoop2 vx nx vy ny ks = some oc →
      (∀ k ∈ ks, mhas vy k = false →
        mhas ny k = false ∧
        COp.multiIncrement (mget vx k) k 0 (mget nx k) ∈ oc) ∧
      (∀ op ∈ oc, ∃ k, k ∈ ks ∧ mhas vy k = false ∧ mhas ny k = false ∧
        op = COp.multiIncrement (mget vx k) k 0 (mget nx k)) ∧
      (oc.map COp.actor).Nodup := by
  intro ks
  induction ks with
  | nil =>
    intro vx nx vy ny oc _ h
    simp only [mergeLoop2, Option.some.injEq] at h
    subst h
    refine ⟨by simp, by simp, by simp⟩
  | cons k rest ih =>
    intro vx nx vy ny oc hnd h
    simp only [List.nodup_cons] at hnd
    simp only [mergeLoop2] at h
    split_ifs at h with hvy hny
    · -- key also present in other's values: skipped
      obtain ⟨ih1, ih2, ih3⟩ := ih vx nx vy ny oc hnd.2 h
      refine ⟨?_, ?_, ih3⟩
      · intro k' hk' hvy'
        rcases List.mem_cons.mp hk' with he | hm
        · subst he
          rw [hvy] at hvy'
          exact absurd hvy' (by simp)
        · exact ih1 k' hm hvy'
      · intro op hop
        obtain ⟨k', hk', h1, h2, h3⟩ := ih2 op hop
        exact ⟨k', List.mem_cons_of_mem _ hk', h1, h2, h3⟩
    · -- key absent from both maps of other: op emitted
      cases hrec : mergeLoop2 vx nx vy ny rest with
      | none => rw [hrec] at h; exact absurd h (by simp)
      | some oc' =>
        rw [hrec] at h
        simp only [Option.some.injEq] at h
        subst h
        obtain ⟨ih1, ih2, ih3⟩ := ih vx nx vy ny oc' hnd.2 hrec
        refine ⟨?_, ?_, ?_⟩
        · intro k' hk' hvy'
          rcases List.mem_cons.mp hk' with he | hm
          · subst he
            exact ⟨by simpa using hny, List.mem_cons_self _ _⟩
          · obtain ⟨hn, hmem⟩ := ih1 k' hm hvy'
            exact ⟨hn, List.mem_cons_of_mem _ hmem⟩
        · intro op hop
          rcases List.mem_cons.mp hop with he | hm
          · subst he
            exact ⟨k, List.mem_cons_self _ _, by simpa using hvy,
              by simpa using hny, rfl⟩
          · obtain ⟨k', hk', h1, h2, h3⟩ := ih2 op hm
            exact ⟨k', List.mem_cons_of_mem _ hk', h1, h2, h3⟩
        · simp only [List.map_cons, List.nodup_cons]
          refine ⟨?_, ih3⟩
          intro hc
          rw [List.mem_map] at hc
          obtain ⟨op, hop, hact⟩ := hc
          obtain ⟨k', hk', _, _, h3⟩ := ih2 op hop
          rw [h3] at hact
          simp only [COp.actor] at hact
          exact hnd.1 (hact ▸ hk')

/-- Per-key description of the first merge loop.  For each key of `other`'s
values map: on `thisValue > otherValue` the local model is untouched and a
lifting operation is emitted (and the loop verified `otherVersion <
thisVersion`); on `otherValue > thisValue` the local model adopts `other`'s
(value, version) pair (and `thisVersion < otherVersion` was verified); on
equality nothing happens.  Keys outside the list are untouched, emitted
operations carry exactly those per-key payloads with pairwise distinct
actors, and the key set of the local values map only grows (staying
duplicate-free). -/
theorem mergeLoop1_spec :
    ∀ (ks : List Actor) (vx nx vy ny vx' nx' vy' ny' : MapSI)
      (tc oc : List COp),
      ks.Nodup →
      mergeLoop1 vx nx vy ny ks = some (vx', nx', vy', ny', tc, oc) →
      (∀ k, k ∉ ks → mget vx' k = mget vx k ∧ mget nx' k = mget nx k) ∧
      (∀ k ∈ ks,
        (mget vy k < mget vx k →
          mget vx' k = mget vx k ∧ mget nx' k = mget nx k ∧
          mget ny k < mget nx k ∧
          COp.multiIncrement (mget vx k - mget vy k) k (mget ny k)
            (mget nx k) ∈ oc) ∧
        (mget vx k < mget vy k →
          mget vx' k = mget vy k ∧ mget nx' k = mget ny k ∧
          mget nx k < mget ny k) ∧
        (mget vx k = mget vy k →
          mget vx' k = mget vx k ∧ mget nx' k = mget nx k)) ∧
      (∀ op ∈ oc, ∃ k, k ∈ ks ∧
        op = COp.multiIncrement (mget vx k - mget vy k) k (mget ny k)
          (mget nx k) ∧
        mget vy k < mget vx k ∧ mget ny k < mget nx k) ∧
      (oc.map COp.actor).Nodup ∧
      (∀ k, mhas vx k = true → mhas vx' k = true) ∧
      (∀ k, mhas vx' k = true → mhas vx k = true ∨ k ∈ ks) ∧
      ((mkeys vx).Nodup → (mkeys vx').Nodup) := by
  intro ks
  induction ks with
  | nil =>
    intro vx nx vy ny vx' nx' vy' ny' tc oc _ h
    simp only [mergeLoop1, Option.some.injEq, Prod.mk.injEq] at h
    obtain ⟨h1, h2, _, _, _, h6⟩ := h
    subst h1; subst h2; subst h6
    refine ⟨fun k _ => ⟨rfl, rfl⟩, by simp, by simp, by simp,
      fun k hk => hk, fun k hk => Or.inl hk, fun hd => hd⟩
  | cons k rest ih =>
    intro vx nx vy ny vx' nx' vy' ny' tc oc hnd h
    rw [List.nodup_cons] at hnd
    simp only [mergeLoop1] at h
    split_ifs at h with hgt hga hlt hgb
    · -- thisValue > otherValue, divergence check passed
      cases hrec : mergeLoop1 vx nx vy ny rest with
      | none => rw [hrec] at h; exact absurd h (by simp)
      | some o =>
        obtain ⟨vx1, nx1, vy1, ny1, tc1, oc1⟩ := o
        rw [hrec] at h
        simp only [Option.some.injEq, Prod.mk.injEq] at h
        obtain ⟨e1, e2, e3, e4, e5, e6⟩ := h
        subst e1; subst e2; subst e3; subst e4; subst e5; subst e6
        obtain ⟨ih1, ih2, ih3, ih4, ih5, ih6, ih7⟩ :=
          ih _ _ _ _ _ _ _ _ _ _ hnd.2 hrec
        push_neg at hga
        refine ⟨?_, ?_, ?_, ?_, ih5, ?_, ih7⟩
        · intro k' hk'
          exact ih1 k' (fun hm => hk' (List.mem_cons_of_mem _ hm))
        · intro k' hk'
          rcases List.mem_cons.mp hk' with he | hm
          · subst he
            obtain ⟨u1, u2⟩ := ih1 k' hnd.1
            exact ⟨fun _ => ⟨u1, u2, hga, List.mem_cons_self _ _⟩,
              fun hc => absurd hc (by omega),
              fun hc => absurd hc (by omega)⟩
          · obtain ⟨c1, c2, c3⟩ := ih2 k' hm
            refine ⟨fun hx => ?_, c2, c3⟩
            obtain ⟨d1, d2, d3, d4⟩ := c1 hx
            exact ⟨d1, d2, d3, List.mem_cons_of_mem _ d4⟩
        · intro op hop
          rcases List.mem_cons.mp hop with he | hm
          · subst he
            exact ⟨k, List.mem_cons_self _ _, rfl, hgt, hga⟩
          · obtain ⟨k', hk', hsh, hv, hn⟩ := ih3 op hm
            exact ⟨k', List.mem_cons_of_mem _ hk', hsh, hv, hn⟩
        · simp only [List.map_cons, List.nodup_cons]
          refine ⟨?_, ih4⟩
          intro hc
          rw [List.mem_map] at hc
          obtain ⟨op, hop, hact⟩ := hc
          obtain ⟨k', hk', hsh, _, _⟩ := ih3 op hop
          rw [hsh] at hact
          simp only [COp.actor] at hact
          exact hnd.1 (hact ▸ hk')
        · intro k' hk'
          rcases ih6 k' hk' with hh | hm
          · exact Or.inl hh
          · exact Or.inr (List.mem_cons_of_mem _ hm)
    · -- otherValue > thisValue, divergence check passed: adopt locally
      cases hrec : mergeLoop1 (mset vx k (mget vy k)) (mset nx k (mget ny k))
          vy ny rest with
      | none => rw [hrec] at h; exact absurd h (by simp)
      | some o =>
        obtain ⟨vx1, nx1, vy1, ny1, tc1, oc1⟩ := o
        rw [hrec] at h
        simp only [Option.some.injEq, Prod.mk.injEq] at h
        obtain ⟨e1, e2, e3, e4, e5, e6⟩ := h
        subst e1; subst e2; subst e3; subst e4; subst e6
        obtain ⟨ih1, ih2, ih3, ih4, ih5, ih6, ih7⟩ :=
          ih _ _ _ _ _ _ _ _ _ _ hnd.2 hrec
        push_neg at hgb
        refine ⟨?_, ?_, ?_, ih4, ?_, ?_, ?_⟩
        · intro k' hk'
          have hne : k ≠ k' := fun he => hk' (he ▸ List.mem_cons_self _ _)
          have hm : k' ∉ rest := fun hm => hk' (List.mem_cons_of_mem _ hm)
          obtain ⟨u1, u2⟩ := ih1 k' hm
          rw [u1, u2, mget_mset_ne _ _ _ _ hne, mget_mset_ne _ _ _ _ hne]
          exact ⟨rfl, rfl⟩
        · intro k' hk'
          rcases List.mem_cons.mp hk' with he | hm
          · subst he
            obtain ⟨u1, u2⟩ := ih1 k' hnd.1
            rw [u1, u2, mget_mset_self, mget_mset_self]
            exact ⟨fun hc => absurd hc (by omega),
              fun _ => ⟨rfl, rfl, hgb⟩,
              fun hc => absurd hc (by omega)⟩
          · have hne : k ≠ k' := fun he => hnd.1 (he ▸ hm)
            obtain ⟨c1, c2, c3⟩ := ih2 k' hm
            simp only [mget_mset_ne _ _ _ _ hne] at c1 c2 c3
            exact ⟨c1, c2, c3⟩
        · intro op hop
          obtain ⟨k', hk', hsh, hv, hn⟩ := ih3 op hop
          have hne : k ≠ k' := fun he => hnd.1 (he ▸ hk')
          simp only [mget_mset_ne _ _ _ _ hne] at hsh hv hn
          exact ⟨k', List.mem_cons_of_mem _ hk', hsh, hv, hn⟩
        · intro k' hk'
          refine ih5 k' ?_
          rw [mhas_mset]
          rw [hk']
          simp
        · intro k' hk'
          rcases ih6 k' hk' with hh | hm
          · rw [mhas_mset] at hh
            rcases Bool.or_eq_true_iff.mp hh with he | hv
            · exact Or.inr (List.mem_cons.mpr (Or.inl (of_decide_eq_true he).symm))
            · exact Or.inl hv
          · exact Or.inr (List.mem_cons_of_mem _ hm)
        · intro hd
          exact ih7 (nodup_mkeys_mset _ _ _ hd)
    · -- equal values: skipped
      obtain ⟨ih1, ih2, ih3, ih4, ih5, ih6, ih7⟩ :=
        ih _ _ _ _ _ _ _ _ _ _ hnd.2 h
      have heq : mget vx k = mget vy k := by omega
      refine ⟨?_, ?_, ?_, ih4, ih5, ?_, ih7⟩
      · intro k' hk'
        exact ih1 k' (fun hm => hk' (List.mem_cons_of_mem _ hm))
      · intro k' hk'
        rcases List.mem_cons.mp hk' with he | hm
        · subst he
          obtain ⟨u1, u2⟩ := ih1 k' hnd.1
          exact ⟨fun hc => absurd hc (by omega),
            fun hc => absurd hc (by omega),
            fun _ => ⟨u1, u2⟩⟩
        · exact ih2 k' hm
      · intro op hop
        obtain ⟨k', hk', hsh, hv, hn⟩ := ih3 op hop
        exact ⟨k', List.mem_cons_of_mem _ hk', hsh, hv, hn⟩
      · intro k' hk'
        rcases ih6 k' hk' with hh | hm
        · exact Or.inl hh
        · exact Or.inr (List.mem_cons_of_mem _ hm)

theorem mergeLoop1_other_unchanged :
    ∀ (ks : List Actor) (vx nx vy ny : MapSI)
      (out : MapSI × MapSI × MapSI × MapSI × List COp × List COp),
      mergeLoop1 vx nx vy ny ks = some out →
      out.2.2.1 = vy ∧ out.2.2.2.1 = ny := by
  intro ks
  induction ks with
  | nil =>
    intro vx nx vy ny out h
    simp only [mergeLoop1, Option.some.injEq] at h
    rw [← h]
    exact ⟨rfl, rfl⟩
  | cons k rest ih =>
    intro vx nx vy ny out h
    simp only [mergeLoop1] at h
    split_ifs at h with hgt hthrow hlt hthrow'
    · cases hrec : mergeLoop1 vx nx vy ny rest with
      | none => rw [hrec] at h; exact absurd h (by simp)
      | some o =>
        rw [hrec] at h
        obtain ⟨vx', nx', vy', ny', tc, oc⟩ := o
        simp only [Option.some.injEq] at h
        have := ih vx nx vy ny _ hrec
        rw [← h]
        exact this
    · cases hrec : mergeLoop1 (mset vx k (mget vy k)) (mset nx k (mget ny k))
        vy ny rest with
      | none => rw [hrec] at h; exact absurd h (by simp)
      | some o =>
        rw [hrec] at h
        obtain ⟨vx', nx', vy', ny', tc, oc⟩ := o
        simp only [Option.some.injEq] at h
        have := ih _ _ vy ny _ hrec
        rw [← h]
        exact this
    · exact ih vx nx vy ny out h

/-- C9: `CRDTCount.merge(other)` never modifies its argument: the values map
and version map of `other` after the call are exactly as before it (all
adoption of remote state mutates only the receiver; the changes intended for
`other` are merely emitted in the `otherChange` operation list). -/
theorem merge_preserves_other (x y : CountData)
    (r : CountData × CountData × List COp × List COp)
    (h : merge x y = some r) : r.2.1 = y := by
  unfold merge at h
  cases h1 : mergeLoop1 x.values x.version y.values y.version
      (mkeys y.values) with
  | none =>
    simp only [h1] at h
    exact absurd h (by simp)
  | some o =>
    obtain ⟨vx, nx, vy, ny, tc, oc1⟩ := o
    simp only [h1] at h
    have hun := mergeLoop1_other_unchanged _ _ _ _ _ _ h1
    simp only at hun
    cases h2 : mergeLoop2 vx nx vy ny (mkeys vx) with
    | none =>
      simp only [h2] at h
      exact absurd h (by simp)
    | some oc2 =>
      simp only [h2, Option.some.injEq] at h
      rw [← h]
      simp only
      rw [hun.1, hun.2]

/-- Witness: merging the two single-actor models from the repository's own
test exercises `merge_preserves_other` at a concrete input. -/
theorem merge_preserves_other_witness :
    merge ⟨[("me", 7)], [("me", 2)]⟩ ⟨[("me", 4)], [("me", 1)]⟩ =
      some (⟨[("me", 7)], [("me", 2)]⟩, ⟨[("me", 4)], [("me", 1)]⟩, [],
        [.multiIncrement 3 "me" 1 2]) ∧
    ((⟨[("me", 7)], [("me", 2)]⟩ : CountData), (⟨[("me", 4)], [("me", 1)]⟩ :
      CountData), ([] : List COp),
      [COp.multiIncrement 3 "me" 1 2]).2.1 = ⟨[("me", 4)], [("me", 1)]⟩ := by
  have hm : merge ⟨[("me", 7)], [("me", 2)]⟩ ⟨[("me", 4)], [("me", 1)]⟩ =
      some (⟨[("me", 7)], [("me", 2)]⟩, ⟨[("me", 4)], [("me", 1)]⟩, [],
        [.multiIncrement 3 "me" 1 2]) := by decide
  exact ⟨hm, merge_preserves_other _ _ _ hm⟩

/-- Applying a list of operations with pairwise distinct actors, each of
which connects to the current version vector, succeeds op by op; the final
state is described per-actor. -/
theorem applyOps_distinct_actors :
    ∀ (ops : List COp) (d : CountData),
      (ops.map COp.actor).Nodup →
      (∀ op ∈ ops, op.vfrom = mget d.version op.actor ∧
        op.vfrom < op.vto ∧ 0 ≤ op.value) →
      (∀ k, (∀ op ∈ ops, op.actor ≠ k) →
        mget (applyOps d ops).values k = mget d.values k ∧
        mget (applyOps d ops).version k = mget d.version k) ∧
      (∀ op ∈ ops,
        mget (applyOps d ops).values op.actor =
          mget d.values op.actor + op.value ∧
        mget (applyOps d ops).version op.actor = op.vto) := by
  intro ops
  induction ops with
  | nil =>
    intro d _ _
    exact ⟨fun k _ => ⟨rfl, rfl⟩, by simp⟩
  | cons op0 rest ih =>
    intro d hnd happ
    obtain ⟨h1, h2, h3⟩ := happ op0 (List.mem_cons_self _ _)
    have hstep := applyOp_success_state d op0 h3 h1 h2
    rw [List.map_cons, List.nodup_cons] at hnd
    have happly : applyOps d (op0 :: rest) =
        applyOps ⟨mset d.values op0.actor (mget d.values op0.actor +
          op0.value), mset d.version op0.actor op0.vto⟩ rest := by
      simp only [applyOps, hstep]
    have hrest : ∀ op ∈ rest, op.vfrom =
        mget (⟨mset d.values op0.actor (mget d.values op0.actor + op0.value),
          mset d.version op0.actor op0.vto⟩ : CountData).version op.actor ∧
        op.vfrom < op.vto ∧ 0 ≤ op.value := by
      intro op hop
      obtain ⟨g1, g2, g3⟩ := happ op (List.mem_cons_of_mem _ hop)
      have hne : op0.actor ≠ op.actor := fun he =>
        hnd.1 (he ▸ List.mem_map.mpr ⟨op, hop, rfl⟩)
      exact ⟨by simpa [mget_mset_ne _ _ _ _ hne] using g1, g2, g3⟩
    obtain ⟨ihA, ihB⟩ := ih _ hnd.2 hrest
    constructor
    · intro k hk
      have hne : op0.actor ≠ k := hk op0 (List.mem_cons_self _ _)
      obtain ⟨a1, a2⟩ :=
        ihA k (fun op hop => hk op (List.mem_cons_of_mem _ hop))
      rw [happly]
      refine ⟨?_, ?_⟩
      · rw [a1]
        simp [mget_mset_ne _ _ _ _ hne]
      · rw [a2]
        simp [mget_mset_ne _ _ _ _ hne]
    · intro op hop
      rcases List.mem_cons.mp hop with he | hm
      · subst he
        have hk : ∀ op' ∈ rest, op'.actor ≠ op.actor := by
          intro op' hop' he
          exact hnd.1 (he ▸ List.mem_map.mpr ⟨op', hop', rfl⟩)
        obtain ⟨a1, a2⟩ := ihA op.actor hk
        rw [happly]
        refine ⟨?_, ?_⟩
        · rw [a1]; simp
        · rw [a2]; simp
      · have hne : op0.actor ≠ op.actor := fun he =>
          hnd.1 (he ▸ List.mem_map.mpr ⟨op, hm, rfl⟩)
        obtain ⟨a1, a2⟩ := ihB op hm
        rw [happly]
        refine ⟨?_, a2⟩
        rw [a1]
        simp [mget_mset_ne _ _ _ _ hne]

/-- C1 (amended): if both replicas are well formed then, after `X.merge(Y)`
returns without throwing and every operation of the emitted `otherChange`
list is applied (in order) to `Y`, the two *values* maps agree on every
actor; the *version* maps agree on every actor whose pre-merge values
differed, but can remain different for an actor whose values already
coincided under different versions, so the full `getData()` states need not
be equal. -/
theorem merge_values_convergent (x y : CountData) (hx : WFCount x)
    (hy : WFCount y) (x' y' : CountData) (tc oc : List COp)
    (h : merge x y = some (x', y', tc, oc)) :
    (∀ k, mget (applyOps y oc).values k = mget x'.values k) ∧
    (∀ k, mget x.values k ≠ mget y.values k →
      mget (applyOps y oc).version k = mget x'.version k) := by
  unfold merge at h
  cases h1 : mergeLoop1 x.values x.version y.values y.version
      (mkeys y.values) with
  | none =>
    simp only [h1] at h
    exact absurd h (by simp)
  | some o =>
    obtain ⟨vx, nx, vy, ny, tc1, oc1⟩ := o
    simp only [h1] at h
    cases h2 : mergeLoop2 vx nx vy ny (mkeys vx) with
    | none =>
      simp only [h2] at h
      exact absurd h (by simp)
    | some oc2 =>
      simp only [h2, Option.some.injEq, Prod.mk.injEq] at h
      obtain ⟨e1, e2, e3, e4⟩ := h
      subst e1; subst e2; subst e3; subst e4
      obtain ⟨hvy, hny⟩ := mergeLoop1_other_unchanged _ _ _ _ _ _ h1
      simp only at hvy hny
      subst hvy; subst hny
      obtain ⟨S1a, S1b, S1c, S1d, S1e, S1f, S1g⟩ :=
        mergeLoop1_spec _ _ _ _ _ _ _ _ _ _ _ hy.1 h1
      have hxnd : (mkeys vx).Nodup := S1g hx.1
      obtain ⟨S2a, S2b, S2c⟩ := mergeLoop2_spec _ _ _ _ _ _ hxnd h2
      -- loop-2 keys: present in the original model x, absent from y
      have hoc2key : ∀ k, k ∈ mkeys vx → mhas y.values k = false →
          mhas x.values k = true ∧ k ∉ mkeys y.values ∧
          mget vx k = mget x.values k ∧ mget nx k = mget x.version k := by
        intro k hk hvyf
        have hnin : k ∉ mkeys y.values := fun hc =>
          by rw [(mhas_iff_mem_mkeys _ _).mpr hc] at hvyf; simp at hvyf
        have hhas : mhas x.values k = true := by
          rcases S1f k ((mhas_iff_mem_mkeys _ _).mpr hk) with hh | hm
          · exact hh
          · exact absurd hm hnin
        obtain ⟨u1, u2⟩ := S1a k hnin
        exact ⟨hhas, hnin, u1, u2⟩
      -- every emitted operation connects to y's version vector
      have happ : ∀ op ∈ oc1 ++ oc2, op.vfrom = mget y.version op.actor ∧
          op.vfrom < op.vto ∧ 0 ≤ op.value := by
        intro op hop
        rcases List.mem_append.mp hop with hm | hm
        · obtain ⟨k, hk, hsh, hv, hn⟩ := S1c op hm
          subst hsh
          simp only [COp.vfrom, COp.vto, COp.actor, COp.value]
          exact ⟨by simp, hn, by omega⟩
        · obtain ⟨k, hk, hvyf, hnyf, hsh⟩ := S2b op hm
          subst hsh
          simp only [COp.vfrom, COp.vto, COp.actor, COp.value]
          obtain ⟨hhas, hnin, u1, u2⟩ := hoc2key k hk hvyf
          obtain ⟨w1, w2⟩ := WFCount_bounds hx hhas
          refine ⟨(mget_eq_zero_of_not_mhas hnyf).symm, by omega, by omega⟩
      -- the emitted operations carry pairwise distinct actors
      have hocnd : ((oc1 ++ oc2).map COp.actor).Nodup := by
        rw [List.map_append]
        refine List.Nodup.append S1d S2c ?_
        intro a ha1 ha2
        rw [List.mem_map] at ha1 ha2
        obtain ⟨op1, hop1, he1⟩ := ha1
        obtain ⟨op2, hop2, he2⟩ := ha2
        obtain ⟨k1, hk1, hsh1, _, _⟩ := S1c op1 hop1
        obtain ⟨k2, hk2, hvy2, _, hsh2⟩ := S2b op2 hop2
        rw [hsh1] at he1
        rw [hsh2] at he2
        simp only [COp.actor] at he1 he2
        subst he1
        subst he2
        rw [(mhas_iff_mem_mkeys _ _).mpr hk1] at hvy2
        simp at hvy2
      obtain ⟨F1, F2⟩ := applyOps_distinct_actors (oc1 ++ oc2) y hocnd happ
      have main : ∀ k, mget (applyOps y (oc1 ++ oc2)).values k = mget vx k ∧
          (mget x.values k ≠ mget y.values k →
            mget (applyOps y (oc1 ++ oc2)).version k = mget nx k) := by
        intro k
        by_cases hk : ∃ op ∈ oc1 ++ oc2, op.actor = k
        · obtain ⟨op, hop, hko⟩ := hk
          obtain ⟨g1, g2⟩ := F2 op hop
          rw [hko] at g1 g2
          rcases List.mem_append.mp hop with hm | hm
          · obtain ⟨k', hk', hsh, hv, hn⟩ := S1c op hm
            have hkk : k' = k := by
              rw [hsh] at hko
              simpa [COp.actor] using hko
            subst hkk
            rw [hsh] at g1 g2
            simp only [COp.value, COp.vto] at g1 g2
            obtain ⟨b1, b2, _, _⟩ := (S1b k' hk').1 hv
            exact ⟨by omega, fun _ => by omega⟩
          · obtain ⟨k', hk', hvyf, hnyf, hsh⟩ := S2b op hm
            have hkk : k' = k := by
              rw [hsh] at hko
              simpa [COp.actor] using hko
            subst hkk
            rw [hsh] at g1 g2
            simp only [COp.value, COp.vto] at g1 g2
            have hz : mget y.values k' = 0 := mget_eq_zero_of_not_mhas hvyf
            exact ⟨by omega, fun _ => g2⟩
        · push_neg at hk
          obtain ⟨g1, g2⟩ := F1 k hk
          by_cases hky : k ∈ mkeys y.values
          · obtain ⟨c1, c2, c3⟩ := S1b k hky
            rcases lt_trichotomy (mget x.values k) (mget y.values k) with
              hlt | heq | hgt
            · obtain ⟨d1, d2, _⟩ := c2 hlt
              exact ⟨by omega, fun _ => by omega⟩
            · obtain ⟨d1, d2⟩ := c3 heq
              exact ⟨by omega, fun hcon => absurd heq hcon⟩
            · obtain ⟨_, _, _, hmem⟩ := c1 hgt
              exact absurd rfl (hk _ (List.mem_append_left _ hmem))
          · obtain ⟨u1, u2⟩ := S1a k hky
            cases hvx : mhas vx k with
            | true =>
              have hvyf : mhas y.values k = false := by
                rw [Bool.eq_false_iff]
                intro hc
                exact hky ((mhas_iff_mem_mkeys _ _).mp hc)
              obtain ⟨_, hmem⟩ :=
                S2a k ((mhas_iff_mem_mkeys _ _).mp hvx) hvyf
              have := hk _ (List.mem_append_right _ hmem)
              simp [COp.actor] at this
            | false =>
              have hz1 : mget vx k = 0 :=
                mget_eq_zero_of_not_mhas hvx
              have hz2 : mget y.values k = 0 := by
                refine mget_eq_zero_of_not_mhas ?_
                rw [Bool.eq_false_iff]
                intro hc
                exact hky ((mhas_iff_mem_mkeys _ _).mp hc)
              exact ⟨by omega, fun hcon => absurd (by omega) hcon⟩
      exact ⟨fun k => (main k).1, fun k hne => (main k).2 hne⟩

/-- Witness for the amended convergence theorem: the two-actor scenario from
the repository's own test (`MultiIncrement(7,'me')` against
`MultiIncrement(4,'them')`). -/
theorem merge_values_convergent_witness :
    merge ⟨[("me", 7)], [("me", 1)]⟩ ⟨[("them", 4)], [("them", 1)]⟩ =
      some (⟨[("me", 7), ("them", 4)], [("me", 1), ("them", 1)]⟩,
        ⟨[("them", 4)], [("them", 1)]⟩,
        [.multiIncrement 4 "them" 0 1], [.multiIncrement 7 "me" 0 1]) ∧
    mget (applyOps ⟨[("them", 4)], [("them", 1)]⟩
      [.multiIncrement 7 "me" 0 1]).values "me" =
      mget [("me", 7), ("them", 4)] "me" ∧
    mget (applyOps ⟨[("them", 4)], [("them", 1)]⟩
      [.multiIncrement 7 "me" 0 1]).version "me" =
      mget [("me", 1), ("them", 1)] "me" := by
  have hm : merge ⟨[("me", 7)], [("me", 1)]⟩ ⟨[("them", 4)], [("them", 1)]⟩ =
      some (⟨[("me", 7), ("them", 4)], [("me", 1), ("them", 1)]⟩,
        ⟨[("them", 4)], [("them", 1)]⟩,
        [.multiIncrement 4 "them" 0 1], [.multiIncrement 7 "me" 0 1]) := by
    decide
  have hc := merge_values_convergent ⟨[("me", 7)], [("me", 1)]⟩
    ⟨[("them", 4)], [("them", 1)]⟩ (by decide) (by decide)
    ⟨[("me", 7), ("them", 4)], [("me", 1), ("them", 1)]⟩
    ⟨[("them", 4)], [("them", 1)]⟩
    [.multiIncrement 4 "them" 0 1] [.multiIncrement 7 "me" 0 1] hm
  exact ⟨hm, hc.1 "me", hc.2 "me" (by decide)⟩

/-- A successful merge certifies that no actor was divergent: whichever side
holds the strictly larger value also holds the strictly larger version. -/
theorem merge_ok_no_divergence (x y : CountData) (hx : WFCount x)
    (hy : WFCount y) (r : CountData × CountData × List COp × List COp)
    (h : merge x y = some r) :
    ∀ k, (mget y.values k < mget x.values k →
        mget y.version k < mget x.version k) ∧
      (mget x.values k < mget y.values k →
        mget x.version k < mget y.version k) := by
  unfold merge at h
  cases h1 : mergeLoop1 x.values x.version y.values y.version
      (mkeys y.values) with
  | none =>
    simp only [h1] at h
    exact absurd h (by simp)
  | some o =>
    obtain ⟨vx, nx, vy, ny, tc1, oc1⟩ := o
    simp only [h1] at h
    cases h2 : mergeLoop2 vx nx vy ny (mkeys vx) with
    | none =>
      simp only [h2] at h
      exact absurd h (by simp)
    | some oc2 =>
      obtain ⟨hvy, hny⟩ := mergeLoop1_other_unchanged _ _ _ _ _ _ h1
      simp only at hvy hny
      subst hvy; subst hny
      obtain ⟨S1a, S1b, S1c, S1d, S1e, S1f, S1g⟩ :=
        mergeLoop1_spec _ _ _ _ _ _ _ _ _ _ _ hy.1 h1
      have hxnd : (mkeys vx).Nodup := S1g hx.1
      obtain ⟨S2a, S2b, S2c⟩ := mergeLoop2_spec _ _ _ _ _ _ hxnd h2
      intro k
      by_cases hky : k ∈ mkeys y.values
      · obtain ⟨c1, c2, c3⟩ := S1b k hky
        constructor
        · intro hgt
          obtain ⟨_, _, hvn, _⟩ := c1 hgt
          exact hvn
        · intro hlt
          obtain ⟨_, _, hvn⟩ := c2 hlt
          exact hvn
      · have hvyf : mhas y.values k = false := by
          rw [Bool.eq_false_iff]
          intro hc
          exact hky ((mhas_iff_mem_mkeys _ _).mp hc)
        have hz : mget y.values k = 0 := mget_eq_zero_of_not_mhas hvyf
        constructor
        · intro hgt
          have hhx : mhas x.values k = true :=
            mhas_of_mget_ne_zero (by omega)
          have hkvx : k ∈ mkeys vx :=
            (mhas_iff_mem_mkeys _ _).mp (S1e k hhx)
          obtain ⟨hnyf, _⟩ := S2a k hkvx hvyf
          have hz2 : mget y.version k = 0 := mget_eq_zero_of_not_mhas hnyf
          have hb := WFCount_bounds hx hhx
          omega
        · intro hlt
          have hhx : mhas x.values k = true :=
            mhas_of_mget_ne_zero (by omega)
          have hb := WFCount_bounds hx hhx
          omega

/-- C4: for well-formed replicas, if for some actor one replica's value is
strictly greater than the other's but its version for that actor is not
strictly greater, then `merge` throws the divergence `CRDTError`
(embedded as `none`); in particular, starting from two empty replicas, after
one applies `MultiIncrement(7,'me',0,1)` and the other
`MultiIncrement(4,'me',0,1)`, the merge throws. -/
theorem merge_throws_on_divergence (x y : CountData) (hx : WFCount x)
    (hy : WFCount y) :
    ((∃ k, (mget y.values k < mget x.values k ∧
        ¬ mget y.version k < mget x.version k) ∨
      (mget x.values k < mget y.values k ∧
        ¬ mget x.version k < mget y.version k)) →
      merge x y = none) ∧
    applyOperation ⟨[], []⟩ (.multiIncrement 7 "me" 0 1) =
      (true, ⟨[("me", 7)], [("me", 1)]⟩) ∧
    applyOperation ⟨[], []⟩ (.multiIncrement 4 "me" 0 1) =
      (true, ⟨[("me", 4)], [("me", 1)]⟩) ∧
    merge ⟨[("me", 7)], [("me", 1)]⟩ ⟨[("me", 4)], [("me", 1)]⟩ = none := by
  refine ⟨?_, by decide, by decide, by decide⟩
  rintro ⟨k, hk⟩
  cases hm : merge x y with
  | none => rfl
  | some r =>
    have hnd := merge_ok_no_divergence x y hx hy r hm k
    rcases hk with ⟨ha, hb⟩ | ⟨ha, hb⟩
    · exact absurd (hnd.1 ha) hb
    · exact absurd (hnd.2 ha) hb

/-- Witness for the divergence theorem at the spec scenario: the two
`MultiIncrement(·,'me',0,1)` replicas. -/
theorem merge_throws_on_divergence_witness :
    merge ⟨[("me", 7)], [("me", 1)]⟩ ⟨[("me", 4)], [("me", 1)]⟩ = none :=
  (merge_throws_on_divergence ⟨[("me", 7)], [("me", 1)]⟩
    ⟨[("me", 4)], [("me", 1)]⟩ (by decide) (by decide)).1
    ⟨"me", Or.inl ⟨by decide, by decide⟩⟩

/-- C1 counterexample: two replicas that hold the *same* value for an actor
under *different* versions (each reachable by a single valid operation).
`merge` succeeds, emits no operations at all, and the two version maps remain
different — so the post-exchange states are not equal as (values, version)
pairs, contrary to the claim. -/
theorem merge_not_version_convergent :
    applyOperation ⟨[], []⟩ (.multiIncrement 5 "a" 0 1) =
      (true, ⟨[("a", 5)], [("a", 1)]⟩) ∧
    applyOperation ⟨[], []⟩ (.multiIncrement 5 "a" 0 3) =
      (true, ⟨[("a", 5)], [("a", 3)]⟩) ∧
    merge ⟨[("a", 5)], [("a", 1)]⟩ ⟨[("a", 5)], [("a", 3)]⟩ =
      some (⟨[("a", 5)], [("a", 1)]⟩, ⟨[("a", 5)], [("a", 3)]⟩, [], []) ∧
    (applyOps ⟨[("a", 5)], [("a", 3)]⟩ []).version ≠
      (⟨[("a", 5)], [("a", 1)]⟩ : CountData).version := by
  refine ⟨by decide, by decide, by decide, by decide⟩

theorem goodNot_foldBB {op : ROp} {a b : Bool} {e : RExpr}
    (h : foldBB op a b = some e) : goodNot e = true := by
  cases op <;> simp only [foldBB] at h
  all_goals
    first
    | exact Option.noConfusion h
    | (rw [Option.some.injEq] at h; rw [← h]; rfl)

theorem goodNot_foldNN {op : ROp} {a b : Rat} {e : RExpr}
    (h : foldNN op a b = some e) : goodNot e = true := by
  cases op <;> simp only [foldNN] at h
  all_goals try split_ifs at h
  all_goals
    first
    | exact Option.noConfusion h
    | (rw [Option.some.injEq] at h; rw [← h]; rfl)

theorem goodNot_simplifyPrimitive2 {op : ROp} {l r e : RExpr}
    (h : simplifyPrimitive2 op l r = some e) : goodNot e = true := by
  unfold simplifyPrimitive2 at h
  cases l <;> cases r
  all_goals
    first
    | exact Option.noConfusion h
    | exact goodNot_foldBB h
    | exact goodNot_foldNN h

theorem binaryIdentity_cases (op2 : ROp) (l2 r2 : RExpr) :
    binaryIdentity op2 l2 r2 = l2 ∨ binaryIdentity op2 l2 r2 = r2 ∨
    (∃ b, binaryIdentity op2 l2 r2 = .boolean b) ∨
    binaryIdentity op2 l2 r2 = .binary op2 l2 r2 := by
  cases op2 <;> cases l2 <;> cases r2 <;> simp only [binaryIdentity] <;>
    try simp
  all_goals split_ifs <;> (try cases ‹Bool›) <;> simp

theorem goodNot_binaryIdentity {op2 : ROp} {l2 r2 : RExpr}
    (hl : goodNot l2 = true) (hr : goodNot r2 = true) :
    goodNot (binaryIdentity op2 l2 r2) = true := by
  rcases binaryIdentity_cases op2 l2 r2 with h | h | ⟨b, h⟩ | h <;> rw [h]
  · exact hl
  · exact hr
  · rfl
  · rfl

/-- Definitional reduction of `normalise` on a binary node. -/
theorem normalise_binary_eq (op : ROp) (l r : RExpr) :
    normalise (.binary op l r) =
      (match simplifyPrimitive2 op (normalise l) (normalise r) with
        | some e => e
        | none =>
          if (normalise r).isFieldName then
            binaryIdentity (swapOp op) (normalise r) (normalise l)
          else binaryIdentity op (normalise l) (normalise r)) := by
  rfl

/-- Definitional reduction of `normalise` on a unary node. -/
theorem normalise_unary_eq (op : ROp) (e : RExpr) :
    normalise (.unary op e) = unaryStep op (normalise e) := by
  rfl

/-- Every normal form avoids the two stripped `not` shapes. -/
theorem goodNot_normalise : ∀ x : RExpr, goodNot (normalise x) = true := by
  intro x
  induction x with
  | num v => rfl
  | boolean b => rfl
  | field n ty => rfl
  | binary op l r ihl ihr =>
    rw [normalise_binary_eq]
    cases hsp : simplifyPrimitive2 op (normalise l) (normalise r) with
    | some e =>
      exact goodNot_simplifyPrimitive2 hsp
    | none =>
      simp only
      split_ifs with hf
      · exact goodNot_binaryIdentity ihr ihl
      · exact goodNot_binaryIdentity ihl ihr
  | unary op e ihe =>
    rw [normalise_unary_eq]
    cases op with
    | not =>
      cases he : normalise e with
      | boolean b => rfl
      | num q => rfl
      | field n ty => rfl
      | binary op2 l2 r2 => rfl
      | unary op2 y =>
        rw [he] at ihe
        cases op2 with
        | not =>
          -- ihe rules out the stripped shapes, so y is neither a boolean
          -- constant nor another `not`
          cases y with
          | boolean b => exact absurd ihe (by simp [goodNot])
          | num q => rfl
          | field n ty => rfl
          | binary op3 l3 r3 => rfl
          | unary op3 z =>
            cases op3 with
            | not => exact absurd ihe (by simp [goodNot])
            | and => rfl
            | or => rfl
            | lt => rfl
            | gt => rfl
            | lte => rfl
            | gte => rfl
            | add => rfl
            | sub => rfl
            | mul => rfl
            | div => rfl
            | neg => rfl
            | eq => rfl
            | neq => rfl
        | and => rfl
        | or => rfl
        | lt => rfl
        | gt => rfl
        | lte => rfl
        | gte => rfl
        | add => rfl
        | sub => rfl
        | mul => rfl
        | div => rfl
        | neg => rfl
        | eq => rfl
        | neq => rfl
    | neg =>
      cases he : normalise e <;> rfl
    | and => rfl
    | or => rfl
    | lt => rfl
    | gt => rfl
    | lte => rfl
    | gte => rfl
    | add => rfl
    | sub => rfl
    | mul => rfl
    | div => rfl
    | eq => rfl
    | neq => rfl

theorem normalise_boolean (b : Bool) : normalise (.boolean b) = .boolean b :=
  rfl

/-- C7: refinement-expression normalisation applies the boolean identity
laws: for every well-typed boolean expression `x`, normalising `x AND true`
yields the normalisation of `x`, `x AND false` yields `false`, `x OR true`
yields `true`, `x OR false` yields the normalisation of `x`, and
`NOT (NOT x)` yields the normalisation of `x`. -/
theorem normalise_identity_laws (x : RExpr)
    (hx : wellTyped x = some .boolean) :
    normalise (.binary .and x (.boolean true)) = normalise x ∧
    normalise (.binary .and x (.boolean false)) = .boolean false ∧
    normalise (.binary .or x (.boolean true)) = .boolean true ∧
    normalise (.binary .or x (.boolean false)) = normalise x ∧
    normalise (.unary .not (.unary .not x)) = normalise x := by
  refine ⟨?_, ?_, ?_, ?_, ?_⟩
  · rw [normalise_binary_eq, normalise_boolean]
    cases hl : normalise x with
    | boolean a =>
      simp [simplifyPrimitive2, foldBB]
    | num v =>
      simp [simplifyPrimitive2, foldNN, binaryIdentity, RExpr.isFieldName]
    | field n ty =>
      simp [simplifyPrimitive2, binaryIdentity, RExpr.isFieldName]
    | binary op2 l2 r2 =>
      simp [simplifyPrimitive2, binaryIdentity, RExpr.isFieldName]
    | unary op2 y =>
      simp [simplifyPrimitive2, binaryIdentity, RExpr.isFieldName]
  · rw [normalise_binary_eq, normalise_boolean]
    cases hl : normalise x with
    | boolean a =>
      simp [simplifyPrimitive2, foldBB]
    | num v =>
      simp [simplifyPrimitive2, foldNN, binaryIdentity, RExpr.isFieldName]
    | field n ty =>
      simp [simplifyPrimitive2, binaryIdentity, RExpr.isFieldName]
    | binary op2 l2 r2 =>
      simp [simplifyPrimitive2, binaryIdentity, RExpr.isFieldName]
    | unary op2 y =>
      simp [simplifyPrimitive2, binaryIdentity, RExpr.isFieldName]
  · rw [normalise_binary_eq, normalise_boolean]
    cases hl : normalise x with
    | boolean a =>
      simp [simplifyPrimitive2, foldBB]
    | num v =>
      simp [simplifyPrimitive2, foldNN, binaryIdentity, RExpr.isFieldName]
    | field n ty =>
      simp [simplifyPrimitive2, binaryIdentity, RExpr.isFieldName]
    | binary op2 l2 r2 =>
      simp [simplifyPrimitive2, binaryIdentity, RExpr.isFieldName]
    | unary op2 y =>
      simp [simplifyPrimitive2, binaryIdentity, RExpr.isFieldName]
  · rw [normalise_binary_eq, normalise_boolean]
    cases hl : normalise x with
    | boolean a =>
      simp [simplifyPrimitive2, foldBB]
    | num v =>
      simp [simplifyPrimitive2, foldNN, binaryIdentity, RExpr.isFieldName]
    | field n ty =>
      simp [simplifyPrimitive2, binaryIdentity, RExpr.isFieldName]
    | binary op2 l2 r2 =>
      simp [simplifyPrimitive2, binaryIdentity, RExpr.isFieldName]
    | unary op2 y =>
      simp [simplifyPrimitive2, binaryIdentity, RExpr.isFieldName]
  · rw [normalise_unary_eq, normalise_unary_eq]
    have hg := goodNot_normalise x
    cases hl : normalise x with
    | boolean b => simp [unaryStep]
    | num q => rfl
    | field n ty => rfl
    | binary op2 l2 r2 => rfl
    | unary op2 y =>
      rw [hl] at hg
      cases op2 with
      | not =>
        cases y with
        | boolean b => exact absurd hg (by simp [goodNot])
        | num q => rfl
        | field n ty => rfl
        | binary op3 l3 r3 => rfl
        | unary op3 z =>
          cases op3 with
          | not => exact absurd hg (by simp [goodNot])
          | and => rfl
          | or => rfl
          | lt => rfl
          | gt => rfl
          | lte => rfl
          | gte => rfl
          | add => rfl
          | sub => rfl
          | mul => rfl
          | div => rfl
          | neg => rfl
          | eq => rfl
          | neq => rfl
      | and => rfl
      | or => rfl
      | lt => rfl
      | gt => rfl
      | lte => rfl
      | gte => rfl
      | add => rfl
      | sub => rfl
      | mul => rfl
      | div => rfl
      | neg => rfl
      | eq => rfl
      | neq => rfl

/-- Witness for the identity laws at a concrete boolean field reference. -/
theorem normalise_identity_laws_witness :
    normalise (.binary .and (.field "f" .boolean) (.boolean true)) =
      normalise (.field "f" .boolean) ∧
    normalise (.binary .or (.field "f" .boolean) (.boolean true)) =
      .boolean true :=
  ⟨(normalise_identity_laws (.field "f" .boolean) (by decide)).1,
    (normalise_identity_laws (.field "f" .boolean) (by decide)).2.2.1⟩

/-- C6: `Range.fromExpression` on `(age >= 18) AND (age < 65)` produces the
single segment `[18, 65)` (closed at 18, open at 65), and the complement of
that range with respect to `(-∞, +∞)` is the two segments `(-∞, 18)` and
`[65, +∞)`. -/
theorem ageRange_spec :
    fromExpression ageExpr =
      some [⟨⟨.fin 18, true⟩, ⟨.fin 65, false⟩⟩] ∧
    rangeComplementOf [⟨⟨.fin 18, true⟩, ⟨.fin 65, false⟩⟩] =
      [⟨⟨.negInf, false⟩, ⟨.fin 18, false⟩⟩,
        ⟨⟨.fin 65, true⟩, ⟨.posInf, false⟩⟩] := by
  exact ⟨by decide, by decide⟩

/-- C3: a container update referencing an entity whose backing model has not
arrived (with a version vector at least the Reference's) triggers no proxy
callback — it is queued — and every `ModelUpdate` the store ever emits is
emitted in a state where all referenced entities have backing models whose
version vectors dominate the References'. -/
theorem pending_queue_spec (s : RMState) (m : RMsg) :
    (∃ d, (step s m).emitted = s.emitted ++ d ∧
      ∀ u ∈ d, satisfied (step s m).backing u = true) ∧
    (∀ u, m = .containerUpdate u → satisfied s.backing u = false →
      (step s m).emitted = s.emitted ∧ u ∈ (step s m).pending) := by
  cases m with
  | containerUpdate u0 =>
    by_cases hs : satisfied s.backing u0 = true
    · refine ⟨⟨[u0], by simp [step, hs], ?_⟩, ?_⟩
      · intro u hu
        rw [List.mem_singleton] at hu
        subst hu
        simpa [step, hs] using hs
      · intro u he hf
        rw [RMsg.containerUpdate.injEq] at he
        subst he
        rw [hs] at hf
        exact absurd hf (by simp)
    · rw [Bool.not_eq_true] at hs
      refine ⟨⟨[], by simp [step, hs], by simp⟩, ?_⟩
      intro u he _
      rw [RMsg.containerUpdate.injEq] at he
      subst he
      refine ⟨by simp [step, hs], ?_⟩
      simp [step, hs]
  | backingArrive id vv =>
    refine ⟨⟨s.pending.filter
      (fun u => satisfied (backingUpd s.backing id vv) u), by simp [step], ?_⟩,
      ?_⟩
    · intro u hu
      rw [List.mem_filter] at hu
      simpa [step] using hu.2
    · intro u he
      exact absurd he (by simp)

/-- Witness: on an empty store, a container update referencing `an-id` with
version vector `{actor: 1}` (the test scenario) is queued and nothing is
emitted. -/
theorem pending_queue_spec_witness :
    (step ⟨[], [], []⟩
      (.containerUpdate ⟨[("an-id", [("actor", 1)])]⟩)).emitted = [] ∧
    (⟨[("an-id", [("actor", 1)])]⟩ : RefUpdate) ∈
      (step ⟨[], [], []⟩
        (.containerUpdate ⟨[("an-id", [("actor", 1)])]⟩)).pending :=
  (pending_queue_spec ⟨[], [], []⟩
    (.containerUpdate ⟨[("an-id", [("actor", 1)])]⟩)).2
    ⟨[("an-id", [("actor", 1)])]⟩ rfl (by decide)

/-- C8: `normalize` refuses without mutating in both failure cases — on an
already-frozen recipe it returns `false` and changes nothing (so repeated
`normalize` is a no-op), and on an invalid recipe it returns `false` and
leaves the recipe unchanged, only extending the errors map. -/
theorem normalize_refusal (r : Recipe) (errors errors2 : List String) :
    (r.frozen = true →
      normalize r errors = (false, r, errors ++ ["already normalized"])) ∧
    (r.frozen = false → recipeIsValid r = false →
      normalize r errors = (false, r, errors ++ ["invalid recipe"])) ∧
    (∀ r' e', normalize r errors = (true, r', e') →
      normalize r' errors2 = (false, r', errors2 ++ ["already normalized"])) := by
  refine ⟨?_, ?_, ?_⟩
  · intro hf
    simp [normalize, hf]
  · intro hf hv
    simp [normalize, hf, hv]
  · intro r' e' h
    unfold normalize at h
    split_ifs at h with h1 h2
    · exact absurd h (by simp)
    · exact absurd h (by simp)
    · simp only [Prod.mk.injEq] at h
      obtain ⟨_, h2', _⟩ := h
      have hfr : r'.frozen = true := by
        rw [← h2']
        rfl
      simp [normalize, hfr]

/-- Witness: a frozen one-particle recipe is refused unchanged, and a fresh
valid recipe normalizes once and is then refused. -/
theorem normalize_refusal_witness :
    normalize ⟨true, [⟨none, true, 0⟩], [], [], true, true, [], []⟩ [] =
      (false, ⟨true, [⟨none, true, 0⟩], [], [], true, true, [], []⟩,
        ["already normalized"]) ∧
    normalize ⟨false, [⟨none, true, 0⟩], [], [], true, true, [], []⟩ [] =
      (true, ⟨true, [⟨none, true, 0⟩], [], [], true, true, [], []⟩, []) ∧
    normalize ⟨true, [⟨none, true, 0⟩], [], [], true, true, [], []⟩ [] =
      (false, ⟨true, [⟨none, true, 0⟩], [], [], true, true, [], []⟩,
        [] ++ ["already normalized"]) := by
  have hsecond :
      normalize ⟨false, [⟨none, true, 0⟩], [], [], true, true, [], []⟩ [] =
        (true, ⟨true, [⟨none, true, 0⟩], [], [], true, true, [], []⟩, []) := by
    simp [normalize, recipeIsValid, findDuplicate, findDupGo, canonicalize,
      List.insertionSort]
  refine ⟨?_, hsecond, ?_⟩
  · exact (normalize_refusal
      ⟨true, [⟨none, true, 0⟩], [], [], true, true, [], []⟩ [] []).1 rfl
  · exact (normalize_refusal
      ⟨false, [⟨none, true, 0⟩], [], [], true, true, [], []⟩ [] []).2.2
      _ _ hsecond

end ArcsSpec
